import Mathlib

set_option autoImplicit false

namespace BlogBot

/-- A blog post as produced by extract_posts_from_daily_page in main.py:
a record with a title and a url field. -/
structure Post where
  title : String
  url : String
deriving DecidableEq, Repr

/-- Model of already_posted (main.py lines 95-97): SELECT 1 FROM posted WHERE
url = ?, a pure membership test on the posted table.  The table is modelled as
the list of its url column values in insertion order (the posted_at column is
never read by the program and is not modelled). -/
def already_posted (seen : List String) (url : String) : Bool :=
  decide (url ∈ seen)

/-- Model of mark_posted (main.py lines 100-105): INSERT OR IGNORE INTO
posted(url, posted_at) VALUES(?, ?) followed by conn.commit().  With url as
PRIMARY KEY the row is appended only when the url is not yet present; the
commit makes the write durable before the function returns. -/
def mark_posted (seen : List String) (url : String) : List String :=
  if url ∈ seen then seen else seen ++ [url]

/-- Outcome of the delivery loop of main (main.py lines 268-279).
sentPosts are the items sent (in order), skippedPosts the items skipped
because already_posted held, processed the items examined at all (in order),
seen the final durable posted table, and failure carries, when
telegram_send_message raised, the failing item together with the items the
loop never reached. -/
structure RunOutcome where
  sentPosts : List Post
  skippedPosts : List Post
  processed : List Post
  seen : List String
  failure : Option (Post × List Post)
deriving DecidableEq, Repr

/-- Model of the delivery loop of main (main.py lines 268-277): for each
planned item, skip it when already_posted holds; otherwise send it
(telegram_send_message) and, only on success, mark_posted it.  The function
sendOk tells whether the Telegram API answers status 200 for the message of a
given item; on any other status telegram_send_message raises RuntimeError,
nothing catches it, so the loop stops with the remaining items unprocessed
and the posted table exactly as last committed. -/
def runLoop (sendOk : Post → Bool) : List Post → List String → RunOutcome
  | [], seen => ⟨[], [], [], seen, none⟩
  | p :: rest, seen =>
    if already_posted seen p.url then
      let o := runLoop sendOk rest seen
      ⟨o.sentPosts, p :: o.skippedPosts, p :: o.processed, o.seen, o.failure⟩
    else if sendOk p then
      let o := runLoop sendOk rest (mark_posted seen p.url)
      ⟨p :: o.sentPosts, o.skippedPosts, p :: o.processed, o.seen, o.failure⟩
    else
      ⟨[], [], [], seen, some (p, rest)⟩

/-- Folding mark_posted over a list of items, as the successful iterations of
the delivery loop do. -/
def markAll (posts : List Post) (seen : List String) : List String :=
  posts.foldl (fun s p => mark_posted s p.url) seen

/-- One step of the Python dict comprehension keyed by url used in
extract_posts_from_daily_page (main.py line 199) and in main (line 262):
a Python dict is an association list ordered by first insertion of each key;
assigning to an existing key overwrites its value in place, assigning a fresh
key appends the pair at the end. -/
def dictInsert : List (String × Post) → Post → List (String × Post)
  | [], p => [(p.url, p)]
  | (k, v) :: rest, p =>
    if k = p.url then (k, p) :: rest else (k, v) :: dictInsert rest p

/-- Model of the url-keyed dict dedup followed by list(uniq.values())
(main.py lines 199-200 and 262-263). -/
def dictDedup (posts : List Post) : List Post :=
  (posts.foldl dictInsert []).map Prod.snd

/-- The last item of a batch whose url equals u, if any: the value the Python
dict comprehension retains for key u. -/
def lastWith (u : String) : List Post → Option Post
  | [] => none
  | p :: rest =>
    match lastWith u rest with
    | some q => some q
    | none => if p.url == u then some p else none

/-- What one http_get call in the scan loop of main can produce, as seen by the
caller: raise is an exception escaping http_get (the final attempt raised, see
main.py line 85), and resp s ps is a response with HTTP status s whose body,
run through extract_posts_from_daily_page, yields the items ps. -/
inductive FetchOutcome where
  | raise : FetchOutcome
  | resp : Nat → List Post → FetchOutcome
deriving DecidableEq, Repr

/-- Model of the scan over blog_bases in main (main.py lines 246-260): a 404
daily page is skipped silently, any other non-200 status is logged and the
source is skipped, a 200 page contributes its extracted posts, and an
exception from http_get propagates and aborts the whole run (nothing in main
catches it). -/
def scanBlogBases : List FetchOutcome → Except Unit (List Post)
  | [] => .ok []
  | FetchOutcome.raise :: _ => .error ()
  | FetchOutcome.resp s ps :: rest =>
    if s = 404 then scanBlogBases rest
    else if s ≠ 200 then scanBlogBases rest
    else (scanBlogBases rest).map (fun tail => ps ++ tail)

/-- State of the file behind DB_PATH when init_db runs: absent (first run),
a valid sqlite database whose posted table holds the given urls, or a file
that is not a valid sqlite database. -/
inductive Storage where
  | absent : Storage
  | valid : List String → Storage
  | corrupt : Storage
deriving DecidableEq, Repr

/-- Model of init_db (main.py lines 88-92) together with the sqlite3 library
semantics it relies on: sqlite3.connect creates the file when absent and
CREATE TABLE IF NOT EXISTS then creates an empty posted table; on an existing
valid database the table is kept as is; on a corrupt file the first execute
raises sqlite3.DatabaseError, which nothing in the program catches. -/
def init_db : Storage → Except String (List String)
  | Storage.absent => .ok []
  | Storage.valid rows => .ok rows
  | Storage.corrupt => .error "sqlite3.DatabaseError: file is not a database"

/-- The HTTP statuses http_get retries on (main.py line 79). -/
def retryStatus (s : Nat) : Bool :=
  s = 429 || s = 500 || s = 502 || s = 503 || s = 504

/-- Body of http_get (main.py lines 75-85).  net k is what the k-th GET
request does: none means session.get raised, some s means it returned status
s.  attempt is the 1-based number of the next request; remaining is how many
loop iterations of for attempt in range(1, 4) are left, the 0 case being the
final unguarded request on line 85.  Returns the result (ok status, or error
for an uncaught exception), the number of GET requests issued, and the list
of sleep durations performed (time.sleep(2 * attempt) before each retry). -/
def httpGetAux (net : Nat → Option Nat) (attempt : Nat) :
    Nat → Except Unit Nat × Nat × List Nat
  | 0 =>
    match net attempt with
    | some s => (.ok s, 1, [])
    | none => (.error (), 1, [])
  | remaining + 1 =>
    match net attempt with
    | some s =>
      if retryStatus s then
        let r := httpGetAux net (attempt + 1) remaining
        (r.1, r.2.1 + 1, 2 * attempt :: r.2.2)
      else (.ok s, 1, [])
    | none =>
      let r := httpGetAux net (attempt + 1) remaining
      (r.1, r.2.1 + 1, 2 * attempt :: r.2.2)

/-- Model of http_get (main.py lines 75-85): three guarded attempts, then one
final unguarded request. -/
def http_get (net : Nat → Option Nat) : Except Unit Nat × Nat × List Nat :=
  httpGetAux net 1 3

/-- Python str.replace for a single-character pattern: every occurrence of c
is replaced by the string e. -/
def replChar (c : Char) (e : List Char) : List Char → List Char
  | [] => []
  | x :: xs => (if x = c then e else [x]) ++ replChar c e xs

/-- The apostrophe character, written via its code point. -/
def apos : Char := Char.ofNat 39

/-- Model of html.escape with its default quote=True, as called by
telegram_send_message (main.py line 205): the CPython implementation replaces
the ampersand first, then the angle brackets, then the two quote
characters. -/
def html_escape (s : List Char) : List Char :=
  replChar apos ['&', '#', 'x', '2', '7', ';']
    (replChar '"' ['&', 'q', 'u', 'o', 't', ';']
      (replChar '>' ['&', 'g', 't', ';']
        (replChar '<' ['&', 'l', 't', ';']
          (replChar '&' ['&', 'a', 'm', 'p', ';'] s))))

/-- Character-wise form of html.escape, used to reason about it. -/
def escapeChar (c : Char) : List Char :=
  if c = '&' then ['&', 'a', 'm', 'p', ';']
  else if c = '<' then ['&', 'l', 't', ';']
  else if c = '>' then ['&', 'g', 't', ';']
  else if c = '"' then ['&', 'q', 'u', 'o', 't', ';']
  else if c = apos then ['&', '#', 'x', '2', '7', ';']
  else [c]

/-- Character-wise escaping of a whole string. -/
def escapeMap (s : List Char) : List Char := s.flatMap escapeChar

/-- The five entity bodies html.escape can emit after an ampersand. -/
def entityBodies : List (List Char) :=
  [['a', 'm', 'p', ';'], ['l', 't', ';'], ['g', 't', ';'],
   ['q', 'u', 'o', 't', ';'], ['#', 'x', '2', '7', ';']]

/-- Whether the text starts with one of the five entity bodies. -/
def isEntityAt (rest : List Char) : Bool :=
  entityBodies.any (fun b => rest.take b.length == b)

/-- Scanner deciding that a text contains no unescaped reserved character: no
literal angle bracket at all, and every ampersand immediately followed by one
of the entity bodies html.escape emits. -/
def noUnescaped : List Char → Bool
  | [] => true
  | c :: rest =>
    if c == '<' || c == '>' then false
    else if c == '&' then isEntityAt rest && noUnescaped rest
    else noUnescaped rest

/-- The message text built by telegram_send_message (main.py line 205):
bold escaped title, newline, escaped url. -/
def telegram_message_text (title url : List Char) : List Char :=
  ('<' :: 'b' :: '>' :: html_escape title) ++
    ('<' :: '/' :: 'b' :: '>' :: '\n' :: html_escape url)

/-- The two operations the program ever runs against the posted table after
init_db: the SELECT of already_posted and the INSERT OR IGNORE of
mark_posted. -/
inductive DbOp where
  | query : String → DbOp
  | mark : String → DbOp
deriving DecidableEq, Repr

/-- Effect of one operation on the posted table: a query writes nothing, a
mark inserts the url unless present. -/
def applyOp (seen : List String) : DbOp → List String
  | DbOp.query _ => seen
  | DbOp.mark u => mark_posted seen u

/-- Effect of a sequence of operations on the posted table. -/
def applyOps (seen : List String) (ops : List DbOp) : List String :=
  ops.foldl applyOp seen

/-- Concrete two-item batch used to instantiate theorems. -/
def postsW : List Post := [⟨"a", "u1"⟩, ⟨"b", "u2"⟩]

/-- Concrete sink behaviour: only the message for url u1 gets status 200. -/
def sendOkW : Post → Bool := fun p => p.url == "u1"

/-- Concrete three-item batch used to instantiate theorems. -/
def postsW2 : List Post := [⟨"a", "u1"⟩, ⟨"b", "u2"⟩, ⟨"c", "u3"⟩]

/-- Concrete sink behaviour: the message for url u2 is rejected. -/
def sendOkW2 : Post → Bool := fun p => !(p.url == "u2")

/-- Concrete network behaviour: every request returns status 200. -/
def netW : Nat → Option Nat := fun _ => some 200

end BlogBot

namespace BlogBot

theorem already_posted_iff (seen : List String) (u : String) :
    already_posted seen u = true ↔ u ∈ seen := by
  simp [already_posted]

theorem mem_mark_posted (seen : List String) (v u : String) :
    u ∈ mark_posted seen v ↔ u ∈ seen ∨ u = v := by
  by_cases h : v ∈ seen
  · simp only [mark_posted, if_pos h]
    exact ⟨Or.inl, fun hu => hu.elim id (fun e => e ▸ h)⟩
  · simp [mark_posted, if_neg h]

theorem mem_markAll (posts : List Post) (seen : List String) (u : String) :
    u ∈ markAll posts seen ↔ u ∈ seen ∨ u ∈ posts.map Post.url := by
  induction posts generalizing seen with
  | nil => simp [markAll]
  | cons p rest ih =>
    have : markAll (p :: rest) seen = markAll rest (mark_posted seen p.url) := rfl
    rw [this, ih, mem_mark_posted]
    simp
    tauto

theorem runLoop_cons_skip (sendOk : Post → Bool) (p : Post) (rest : List Post)
    (seen : List String) (h : already_posted seen p.url = true) :
    runLoop sendOk (p :: rest) seen =
      ⟨(runLoop sendOk rest seen).sentPosts,
       p :: (runLoop sendOk rest seen).skippedPosts,
       p :: (runLoop sendOk rest seen).processed,
       (runLoop sendOk rest seen).seen,
       (runLoop sendOk rest seen).failure⟩ := by
  simp [runLoop, h]

theorem runLoop_cons_send (sendOk : Post → Bool) (p : Post) (rest : List Post)
    (seen : List String) (h : already_posted seen p.url = false)
    (h2 : sendOk p = true) :
    runLoop sendOk (p :: rest) seen =
      ⟨p :: (runLoop sendOk rest (mark_posted seen p.url)).sentPosts,
       (runLoop sendOk rest (mark_posted seen p.url)).skippedPosts,
       p :: (runLoop sendOk rest (mark_posted seen p.url)).processed,
       (runLoop sendOk rest (mark_posted seen p.url)).seen,
       (runLoop sendOk rest (mark_posted seen p.url)).failure⟩ := by
  simp [runLoop, h, h2]

theorem runLoop_cons_fail (sendOk : Post → Bool) (p : Post) (rest : List Post)
    (seen : List String) (h : already_posted seen p.url = false)
    (h2 : sendOk p = false) :
    runLoop sendOk (p :: rest) seen = ⟨[], [], [], seen, some (p, rest)⟩ := by
  simp [runLoop, h, h2]

theorem runLoop_seen_spec (sendOk : Post → Bool) (posts : List Post)
    (seen : List String) :
    (runLoop sendOk posts seen).seen =
      markAll (runLoop sendOk posts seen).sentPosts seen := by
  induction posts generalizing seen with
  | nil => rfl
  | cons p rest ih =>
    cases h1 : already_posted seen p.url
    · cases h2 : sendOk p
      · rw [runLoop_cons_fail sendOk p rest seen h1 h2]
        rfl
      · rw [runLoop_cons_send sendOk p rest seen h1 h2]
        exact ih (mark_posted seen p.url)
    · rw [runLoop_cons_skip sendOk p rest seen h1]
      exact ih seen

theorem runLoop_shape (sendOk : Post → Bool) (posts : List Post)
    (seen : List String) :
    posts = (runLoop sendOk posts seen).processed ++
      (match (runLoop sendOk posts seen).failure with
       | some pr => pr.1 :: pr.2
       | none => []) := by
  induction posts generalizing seen with
  | nil => rfl
  | cons p rest ih =>
    cases h1 : already_posted seen p.url
    · cases h2 : sendOk p
      · rw [runLoop_cons_fail sendOk p rest seen h1 h2]
        rfl
      · rw [runLoop_cons_send sendOk p rest seen h1 h2]
        simpa using congrArg (fun l => p :: l) (ih (mark_posted seen p.url))
    · rw [runLoop_cons_skip sendOk p rest seen h1]
      simpa using congrArg (fun l => p :: l) (ih seen)

theorem runLoop_failure_spec (sendOk : Post → Bool) (posts : List Post)
    (seen : List String) (p : Post) (rest : List Post)
    (h : (runLoop sendOk posts seen).failure = some (p, rest)) :
    sendOk p = false ∧
    already_posted (runLoop sendOk posts seen).seen p.url = false := by
  induction posts generalizing seen with
  | nil => exact absurd h (by simp [runLoop])
  | cons q tl ih =>
    cases h1 : already_posted seen q.url
    · cases h2 : sendOk q
      · rw [runLoop_cons_fail sendOk q tl seen h1 h2] at h ⊢
        simp only [Option.some.injEq, Prod.mk.injEq] at h
        obtain ⟨hq, ht⟩ := h
        subst hq
        exact ⟨h2, h1⟩
      · rw [runLoop_cons_send sendOk q tl seen h1 h2] at h ⊢
        exact ih (mark_posted seen q.url) h
    · rw [runLoop_cons_skip sendOk q tl seen h1] at h ⊢
      exact ih seen h

theorem runLoop_sent_subset (sendOk : Post → Bool) (posts : List Post)
    (seen : List String) :
    ∀ q ∈ (runLoop sendOk posts seen).sentPosts,
      q ∈ (runLoop sendOk posts seen).processed := by
  induction posts generalizing seen with
  | nil => simp [runLoop]
  | cons p rest ih =>
    cases h1 : already_posted seen p.url
    · cases h2 : sendOk p
      · rw [runLoop_cons_fail sendOk p rest seen h1 h2]
        simp
      · rw [runLoop_cons_send sendOk p rest seen h1 h2]
        intro q hq
        rcases List.mem_cons.mp hq with hq | hq
        · exact hq ▸ List.mem_cons_self q _
        · exact List.mem_cons_of_mem p (ih (mark_posted seen p.url) q hq)
    · rw [runLoop_cons_skip sendOk p rest seen h1]
      intro q hq
      exact List.mem_cons_of_mem p (ih seen q hq)

theorem already_posted_mark_of_ne (seen : List String) (v u : String)
    (h : u ≠ v) : already_posted (mark_posted seen v) u = already_posted seen u := by
  simp [already_posted, mem_mark_posted, h]

theorem runLoop_allOk (posts : List Post) (seen : List String)
    (h : (posts.map Post.url).Nodup) :
    (runLoop (fun _ => true) posts seen).failure = none ∧
    (runLoop (fun _ => true) posts seen).sentPosts =
      posts.filter (fun p => !already_posted seen p.url) ∧
    (runLoop (fun _ => true) posts seen).skippedPosts =
      posts.filter (fun p => already_posted seen p.url) := by
  induction posts generalizing seen with
  | nil => exact ⟨rfl, rfl, rfl⟩
  | cons p rest ih =>
    rw [List.map_cons, List.nodup_cons] at h
    obtain ⟨hp, hr⟩ := h
    cases h1 : already_posted seen p.url
    · rw [runLoop_cons_send (fun _ => true) p rest seen h1 rfl]
      obtain ⟨f1, s1, k1⟩ := ih (mark_posted seen p.url) hr
      have hcong : ∀ q ∈ rest,
          already_posted (mark_posted seen p.url) q.url = already_posted seen q.url := by
        intro q hq
        exact already_posted_mark_of_ne seen p.url q.url
          (fun e => hp (e ▸ List.mem_map_of_mem Post.url hq))
      refine ⟨f1, ?_, ?_⟩
      · rw [List.filter_cons, s1]
        simp only [h1, Bool.not_false, if_true]
        exact congrArg (fun l => p :: l)
          (List.filter_congr (fun q hq => by rw [hcong q hq]))
      · rw [List.filter_cons, k1]
        simp only [h1, if_false]
        exact List.filter_congr (fun q hq => by rw [hcong q hq])
    · rw [runLoop_cons_skip (fun _ => true) p rest seen h1]
      obtain ⟨f1, s1, k1⟩ := ih seen hr
      refine ⟨f1, ?_, ?_⟩
      · rw [List.filter_cons, s1]
        simp [h1]
      · rw [List.filter_cons, k1]
        simp [h1]

theorem runLoop_prefixFail (sendOk : Post → Bool) (posts : List Post)
    (seen : List String) (k : Nat) (hk : k < posts.length)
    (hNew : ∀ p ∈ posts, p.url ∉ seen)
    (hNodup : (posts.map Post.url).Nodup)
    (hsend : ∀ p ∈ posts.take k, sendOk p = true)
    (hfail : sendOk (posts.get ⟨k, hk⟩) = false) :
    runLoop sendOk posts seen =
      ⟨posts.take k, [], posts.take k, markAll (posts.take k) seen,
       some (posts.get ⟨k, hk⟩, posts.drop (k + 1))⟩ := by
  induction posts generalizing k seen with
  | nil => exact absurd hk (by simp)
  | cons p rest ih =>
    have h1 : already_posted seen p.url = false := by
      have := hNew p (List.mem_cons_self p rest)
      simp [already_posted, this]
    cases k with
    | zero =>
      rw [runLoop_cons_fail sendOk p rest seen h1 hfail]
      rfl
    | succ j =>
      have hjk : j < rest.length := Nat.lt_of_succ_lt_succ hk
      have hsp : sendOk p = true := by
        apply hsend p
        rw [List.take_succ_cons]
        exact List.mem_cons_self p _
      rw [List.map_cons, List.nodup_cons] at hNodup
      obtain ⟨hp, hr⟩ := hNodup
      rw [runLoop_cons_send sendOk p rest seen h1 hsp]
      have hNew2 : ∀ q ∈ rest, q.url ∉ mark_posted seen p.url := by
        intro q hq
        rw [mem_mark_posted]
        rintro (hin | heq)
        · exact hNew q (List.mem_cons_of_mem p hq) hin
        · exact hp (heq ▸ List.mem_map_of_mem Post.url hq)
      have hsend2 : ∀ q ∈ rest.take j, sendOk q = true := by
        intro q hq
        apply hsend q
        rw [List.take_succ_cons]
        exact List.mem_cons_of_mem p hq
      have hfail2 : sendOk (rest.get ⟨j, hjk⟩) = false := hfail
      rw [ih (mark_posted seen p.url) j hjk hNew2 hr hsend2 hfail2]
      rfl

/-- C3: Idempotent set-variant commit: committing the same URL twice leaves the
seen-set equal to the state after the first commit; in particular its size is
unchanged by the second call. -/
theorem idempotent_mark_posted (seen : List String) (u : String) :
    mark_posted (mark_posted seen u) u = mark_posted seen u ∧
    (mark_posted (mark_posted seen u) u).length = (mark_posted seen u).length := by
  have hmem : u ∈ mark_posted seen u := (mem_mark_posted seen u u).mpr (Or.inr rfl)
  have h1 : mark_posted (mark_posted seen u) u = mark_posted seen u := by
    unfold mark_posted at hmem ⊢
    rw [if_pos hmem]
  exact ⟨h1, by rw [h1]⟩

theorem mem_applyOps_of_mem (ops : List DbOp) :
    ∀ (seen : List String) (u : String), u ∈ seen → u ∈ applyOps seen ops := by
  induction ops with
  | nil => exact fun seen u hu => hu
  | cons op rest ih =>
    intro seen u hu
    cases op with
    | query v => exact ih seen u hu
    | mark v => exact ih (mark_posted seen v) u ((mem_mark_posted seen v u).mpr (Or.inl hu))

/-- C9: Seen-set monotone growth: no operation removes a row from the posted
table; after any sequence of already_posted and mark_posted calls every url
recorded before is still recorded, and reopening the database with init_db
keeps the table intact across runs. -/
theorem seen_set_monotone (ops : List DbOp) (seen : List String) (u : String)
    (hu : u ∈ seen) :
    u ∈ applyOps seen ops ∧ init_db (Storage.valid seen) = Except.ok seen :=
  ⟨mem_applyOps_of_mem ops seen u hu, rfl⟩

/-- Witness for seen_set_monotone at a concrete table and operation list. -/
theorem seen_set_monotone_witness :
    "u0" ∈ applyOps ["u0"] [DbOp.mark "u9", DbOp.query "z"] ∧
    init_db (Storage.valid ["u0"]) = Except.ok ["u0"] :=
  seen_set_monotone [DbOp.mark "u9", DbOp.query "z"] ["u0"] "u0" (by decide)

/-- C4: Set-variant newness test: already_posted is exactly membership of the
url in the posted table and has no side effect (it returns a Bool and leaves
the state untouched: only sent items ever extend the table), and in a run
whose sends all succeed exactly the items already present are skipped and
exactly the absent ones are sent. -/
theorem set_variant_newness (seen : List String) (posts : List Post)
    (u : String) (hNodup : (posts.map Post.url).Nodup) :
    (already_posted seen u = true ↔ u ∈ seen) ∧
    (runLoop (fun _ => true) posts seen).skippedPosts =
      posts.filter (fun p => already_posted seen p.url) ∧
    (runLoop (fun _ => true) posts seen).sentPosts =
      posts.filter (fun p => !already_posted seen p.url) ∧
    (runLoop (fun _ => true) posts seen).failure = none ∧
    (runLoop (fun _ => true) posts seen).seen =
      markAll ((runLoop (fun _ => true) posts seen).sentPosts) seen := by
  obtain ⟨f, s, k⟩ := runLoop_allOk posts seen hNodup
  exact ⟨already_posted_iff seen u, k, s, f, runLoop_seen_spec _ posts seen⟩

/-- Witness for set_variant_newness at a concrete state and batch. -/
theorem set_variant_newness_witness :
    (already_posted ["u1"] "u1" = true ↔ "u1" ∈ ["u1"]) ∧
    (runLoop (fun _ => true) postsW ["u1"]).skippedPosts =
      postsW.filter (fun p => already_posted ["u1"] p.url) := by
  have h := set_variant_newness ["u1"] postsW "u1" (by decide)
  exact ⟨h.1, h.2.1⟩

/-- C2: Fail-fast delivery: when the sink rejects a send the loop does not
catch and continue; the failing item and everything after it is left
unprocessed, the final table equals the initial one extended by exactly the
successfully sent items, and neither the failed item nor any later item was
committed. -/
theorem fail_fast_delivery (sendOk : Post → Bool) (posts : List Post)
    (seen : List String) (p : Post) (rest : List Post)
    (hNodup : (posts.map Post.url).Nodup)
    (h : (runLoop sendOk posts seen).failure = some (p, rest)) :
    sendOk p = false ∧
    posts = (runLoop sendOk posts seen).processed ++ p :: rest ∧
    (runLoop sendOk posts seen).seen =
      markAll (runLoop sendOk posts seen).sentPosts seen ∧
    p.url ∉ (runLoop sendOk posts seen).seen ∧
    p ∉ (runLoop sendOk posts seen).sentPosts ∧
    ∀ q ∈ rest, q ∉ (runLoop sendOk posts seen).sentPosts ∧
      (q.url ∈ (runLoop sendOk posts seen).seen ↔ q.url ∈ seen) := by
  obtain ⟨hsf, hap⟩ := runLoop_failure_spec sendOk posts seen p rest h
  have hseen := runLoop_seen_spec sendOk posts seen
  have hshape : posts = (runLoop sendOk posts seen).processed ++ p :: rest := by
    have hs := runLoop_shape sendOk posts seen
    rw [h] at hs
    exact hs
  have hpmem : p.url ∉ (runLoop sendOk posts seen).seen := by
    simpa [already_posted] using hap
  have hpsent : p ∉ (runLoop sendOk posts seen).sentPosts := by
    intro hp
    apply hpmem
    rw [hseen, mem_markAll]
    exact Or.inr (List.mem_map_of_mem Post.url hp)
  have hNodupPosts : posts.Nodup := hNodup.of_map
  have hNodupSplit := hNodupPosts
  rw [hshape, List.nodup_append] at hNodupSplit
  have hNodupUrlSplit := hNodup
  rw [hshape, List.map_append, List.nodup_append] at hNodupUrlSplit
  refine ⟨hsf, hshape, hseen, hpmem, hpsent, ?_⟩
  intro q hq
  constructor
  · intro hqs
    have hqproc : q ∈ (runLoop sendOk posts seen).processed :=
      runLoop_sent_subset sendOk posts seen q hqs
    exact hNodupSplit.2.2 hqproc (List.mem_cons_of_mem p hq)
  · rw [hseen, mem_markAll]
    constructor
    · rintro (h1 | h1)
      · exact h1
      · exfalso
        obtain ⟨q2, hq2s, hq2u⟩ := List.mem_map.mp h1
        have hq2proc : q2 ∈ (runLoop sendOk posts seen).processed :=
          runLoop_sent_subset sendOk posts seen q2 hq2s
        exact hNodupUrlSplit.2.2 (hq2u ▸ List.mem_map_of_mem Post.url hq2proc)
          (List.mem_map_of_mem Post.url (List.mem_cons_of_mem p hq))
    · exact Or.inl

/-- Witness for fail_fast_delivery at a concrete batch whose second item is
rejected by the sink. -/
theorem fail_fast_delivery_witness :
    sendOkW2 ⟨"b", "u2"⟩ = false ∧
    postsW2 = (runLoop sendOkW2 postsW2 []).processed ++
      (⟨"b", "u2"⟩ : Post) :: [⟨"c", "u3"⟩] := by
  have h := fail_fast_delivery sendOkW2 postsW2 [] ⟨"b", "u2"⟩ [⟨"c", "u3"⟩]
    (by decide) (by decide)
  exact ⟨h.1, h.2.1⟩

/-- C1: Per-item commit no-loss: on a fresh planned batch with distinct urls,
if the sink accepts the first k messages and rejects message k, the run stops
there having committed exactly the first k urls, and a subsequent run over
the same data (or over any superset batch) sends exactly the remaining items
and never resends the first k. -/
theorem per_item_commit_no_loss (sendOk : Post → Bool)
    (posts posts2 : List Post) (seen : List String) (k : Nat)
    (hk : k < posts.length)
    (hNew : ∀ p ∈ posts, p.url ∉ seen)
    (hNodup : (posts.map Post.url).Nodup)
    (hsend : ∀ p ∈ posts.take k, sendOk p = true)
    (hfail : sendOk (posts.get ⟨k, hk⟩) = false)
    (hsup : ∀ p ∈ posts, p ∈ posts2)
    (hNodup2 : (posts2.map Post.url).Nodup) :
    (runLoop sendOk posts seen).sentPosts = posts.take k ∧
    (runLoop sendOk posts seen).failure =
      some (posts.get ⟨k, hk⟩, posts.drop (k + 1)) ∧
    (runLoop sendOk posts seen).seen = markAll (posts.take k) seen ∧
    (∀ u, u ∈ (runLoop sendOk posts seen).seen ↔
      u ∈ seen ∨ u ∈ (posts.take k).map Post.url) ∧
    (runLoop (fun _ => true) posts
      (runLoop sendOk posts seen).seen).sentPosts = posts.drop k ∧
    (runLoop (fun _ => true) posts
      (runLoop sendOk posts seen).seen).skippedPosts = posts.take k ∧
    (runLoop (fun _ => true) posts
      (runLoop sendOk posts seen).seen).failure = none ∧
    (∀ p ∈ posts.drop k,
      p ∈ (runLoop (fun _ => true) posts2
        (runLoop sendOk posts seen).seen).sentPosts) ∧
    (∀ p ∈ posts.take k,
      p ∉ (runLoop (fun _ => true) posts2
        (runLoop sendOk posts seen).seen).sentPosts) ∧
    (runLoop (fun _ => true) posts2
      (runLoop sendOk posts seen).seen).failure = none := by
  have hrun := runLoop_prefixFail sendOk posts seen k hk hNew hNodup hsend hfail
  have hseenF : (runLoop sendOk posts seen).seen = markAll (posts.take k) seen := by
    rw [hrun]
  have hmemF : ∀ u, u ∈ markAll (posts.take k) seen ↔
      u ∈ seen ∨ u ∈ (posts.take k).map Post.url :=
    fun u => mem_markAll (posts.take k) seen u
  have hTakeIn : ∀ p ∈ posts.take k,
      already_posted (markAll (posts.take k) seen) p.url = true := by
    intro p hp
    rw [already_posted_iff]
    exact (hmemF p.url).mpr (Or.inr (List.mem_map_of_mem Post.url hp))
  have hsplitmap : posts.map Post.url =
      (posts.take k).map Post.url ++ (posts.drop k).map Post.url := by
    rw [← List.map_append, List.take_append_drop]
  have hDropOut : ∀ p ∈ posts.drop k,
      already_posted (markAll (posts.take k) seen) p.url = false := by
    intro p hp
    have hpPosts : p ∈ posts := by
      rw [← List.take_append_drop k posts]
      exact List.mem_append_right _ hp
    have h1 : p.url ∉ seen := hNew p hpPosts
    have h2 : p.url ∉ (posts.take k).map Post.url := by
      intro hmem
      have hh := hNodup
      rw [hsplitmap, List.nodup_append] at hh
      exact hh.2.2 hmem (List.mem_map_of_mem Post.url hp)
    have : p.url ∉ markAll (posts.take k) seen := by
      rw [hmemF]
      rintro (hx | hx)
      · exact h1 hx
      · exact h2 hx
    simpa [already_posted] using this
  have hfilter1 : posts.filter
      (fun p => !already_posted (markAll (posts.take k) seen) p.url) =
      posts.drop k := by
    have e1 : (posts.take k).filter
        (fun p => !already_posted (markAll (posts.take k) seen) p.url) = [] := by
      rw [List.filter_eq_nil_iff]
      intro p hp
      simp [hTakeIn p hp]
    have e2 : (posts.drop k).filter
        (fun p => !already_posted (markAll (posts.take k) seen) p.url) =
        posts.drop k := by
      rw [List.filter_eq_self]
      intro p hp
      simp [hDropOut p hp]
    have esplit : posts.filter
        (fun p => !already_posted (markAll (posts.take k) seen) p.url) =
        (posts.take k ++ posts.drop k).filter
          (fun p => !already_posted (markAll (posts.take k) seen) p.url) := by
      rw [List.take_append_drop]
    rw [esplit, List.filter_append, e1, e2, List.nil_append]
  have hfilter2 : posts.filter
      (fun p => already_posted (markAll (posts.take k) seen) p.url) =
      posts.take k := by
    have e1 : (posts.take k).filter
        (fun p => already_posted (markAll (posts.take k) seen) p.url) =
        posts.take k := by
      rw [List.filter_eq_self]
      intro p hp
      simp [hTakeIn p hp]
    have e2 : (posts.drop k).filter
        (fun p => already_posted (markAll (posts.take k) seen) p.url) = [] := by
      rw [List.filter_eq_nil_iff]
      intro p hp
      simp [hDropOut p hp]
    have esplit : posts.filter
        (fun p => already_posted (markAll (posts.take k) seen) p.url) =
        (posts.take k ++ posts.drop k).filter
          (fun p => already_posted (markAll (posts.take k) seen) p.url) := by
      rw [List.take_append_drop]
    rw [esplit, List.filter_append, e1, e2, List.append_nil]
  obtain ⟨f2, s2, k2⟩ := runLoop_allOk posts (markAll (posts.take k) seen) hNodup
  obtain ⟨f3, s3, k3⟩ := runLoop_allOk posts2 (markAll (posts.take k) seen) hNodup2
  refine ⟨by rw [hrun], by rw [hrun], hseenF, ?_, ?_, ?_, ?_, ?_, ?_, ?_⟩
  · intro u
    rw [hseenF]
    exact hmemF u
  · rw [hseenF, s2, hfilter1]
  · rw [hseenF, k2, hfilter2]
  · rw [hseenF, f2]
  · intro p hp
    rw [hseenF, s3]
    have hpPosts : p ∈ posts := by
      rw [← List.take_append_drop k posts]
      exact List.mem_append_right _ hp
    exact List.mem_filter.mpr ⟨hsup p hpPosts, by simp [hDropOut p hp]⟩
  · intro p hp hmem
    rw [hseenF, s3] at hmem
    have := (List.mem_filter.mp hmem).2
    rw [hTakeIn p hp] at this
    simp at this
  · rw [hseenF, f3]

theorem exceptMap_error_iff {α β : Type} (f : α → β) (e : Except Unit α) :
    e.map f = Except.error () ↔ e = Except.error () := by
  cases e with
  | error u => cases u; simp [Except.map]
  | ok a => simp [Except.map]

theorem scan_error_iff (outs : List FetchOutcome) :
    scanBlogBases outs = Except.error () ↔ FetchOutcome.raise ∈ outs := by
  induction outs with
  | nil => simp [scanBlogBases]
  | cons o rest ih =>
    cases o with
    | raise => simp [scanBlogBases]
    | resp s ps =>
      by_cases h4 : s = 404
      · rw [show scanBlogBases (FetchOutcome.resp s ps :: rest) = scanBlogBases rest
          from by simp [scanBlogBases, h4]]
        rw [ih]
        simp
      · by_cases h2 : s = 200
        · subst h2
          rw [show scanBlogBases (FetchOutcome.resp 200 ps :: rest) =
              (scanBlogBases rest).map (fun tail => ps ++ tail)
            from by simp [scanBlogBases]]
          rw [exceptMap_error_iff, ih]
          simp
        · rw [show scanBlogBases (FetchOutcome.resp s ps :: rest) = scanBlogBases rest
            from by simp [scanBlogBases, h4, h2]]
          rw [ih]
          simp

/-- C6 counterexample: a source whose daily page answers status 500 does not
abort the run; the scan continues and collects the posts of the next
source, so the fetch failure is not fatal as the claim states. -/
theorem fetch_errors_fatal_refuted :
    scanBlogBases
        [FetchOutcome.resp 500 [], FetchOutcome.resp 200 [⟨"t", "u"⟩]] =
      Except.ok [⟨"t", "u"⟩] ∧
    scanBlogBases
        [FetchOutcome.resp 500 [], FetchOutcome.resp 200 [⟨"t", "u"⟩]] ≠
      Except.error () := by
  refine ⟨rfl, fun h => ?_⟩
  exact Except.noConfusion h

/-- C6 amended: only an exception escaping http_get aborts the scan (and it
always does); a daily page answering any non-200 status, 404 included, makes
the run skip that source and continue with the remaining ones, and a 200 page
contributes its posts. -/
theorem fetch_error_handling (outs : List FetchOutcome) (s : Nat)
    (ps : List Post) (rest : List FetchOutcome) (hs : s ≠ 200) :
    (scanBlogBases outs = Except.error () ↔ FetchOutcome.raise ∈ outs) ∧
    scanBlogBases (FetchOutcome.resp s ps :: rest) = scanBlogBases rest ∧
    scanBlogBases (FetchOutcome.resp 200 ps :: rest) =
      (scanBlogBases rest).map (fun tail => ps ++ tail) := by
  refine ⟨scan_error_iff outs, ?_, by simp [scanBlogBases]⟩
  by_cases h4 : s = 404
  · simp [scanBlogBases, h4]
  · simp [scanBlogBases, h4, hs]

/-- Witness for fetch_error_handling at a concrete status-500 outcome. -/
theorem fetch_error_handling_witness :
    (scanBlogBases [] = Except.error () ↔
      FetchOutcome.raise ∈ ([] : List FetchOutcome)) ∧
    scanBlogBases [FetchOutcome.resp 500 []] = scanBlogBases [] := by
  have h := fetch_error_handling [] 500 [] [] (by decide)
  exact ⟨h.1, h.2.1⟩

/-- C7 counterexample: on a corrupt database file the first execute raises
sqlite3.DatabaseError; init_db does not catch it and does not return an empty
state, so loading is not the never-raising operation the claim states. -/
theorem load_never_fails_refuted :
    init_db Storage.corrupt =
      Except.error "sqlite3.DatabaseError: file is not a database" ∧
    init_db Storage.corrupt ≠ Except.ok [] := by
  refine ⟨rfl, fun h => ?_⟩
  exact Except.noConfusion h

/-- C7 amended: on missing storage init_db creates the posted table and the
run proceeds with an empty seen-set, and an existing table is kept; but on
corrupt storage the database error propagates and aborts the run. -/
theorem load_initializes_missing_storage (rows : List String) :
    init_db Storage.absent = Except.ok ([] : List String) ∧
    init_db (Storage.valid rows) = Except.ok rows ∧
    init_db Storage.corrupt =
      Except.error "sqlite3.DatabaseError: file is not a database" :=
  ⟨rfl, rfl, rfl⟩

theorem dictInsert_fst (d : List (String × Post)) (p : Post) :
    (dictInsert d p).map Prod.fst =
      if p.url ∈ d.map Prod.fst then d.map Prod.fst
      else d.map Prod.fst ++ [p.url] := by
  induction d with
  | nil => simp [dictInsert]
  | cons kv rest ih =>
    obtain ⟨k, v⟩ := kv
    by_cases h : k = p.url
    · subst h
      simp [dictInsert]
    · by_cases h2 : p.url ∈ rest.map Prod.fst
      · simp [dictInsert, h, ih, h2, Ne.symm h]
      · simp [dictInsert, h, ih, h2, Ne.symm h]

theorem dictInsert_keys_nodup (d : List (String × Post)) (p : Post)
    (h : (d.map Prod.fst).Nodup) : ((dictInsert d p).map Prod.fst).Nodup := by
  rw [dictInsert_fst]
  by_cases h2 : p.url ∈ d.map Prod.fst
  · simpa [h2] using h
  · simp only [h2, if_false]
    rw [List.nodup_append]
    refine ⟨h, List.nodup_singleton _, ?_⟩
    intro a ha hb
    rw [List.mem_singleton] at hb
    exact h2 (hb ▸ ha)

theorem dictInsert_snd_url (d : List (String × Post)) (p : Post)
    (h : ∀ kv ∈ d, (kv : String × Post).2.url = kv.1) :
    ∀ kv ∈ dictInsert d p, (kv : String × Post).2.url = kv.1 := by
  induction d with
  | nil =>
    intro kv hkv
    rw [show dictInsert [] p = [(p.url, p)] from rfl, List.mem_singleton] at hkv
    subst hkv
    rfl
  | cons kv0 rest ih =>
    obtain ⟨k, v⟩ := kv0
    by_cases hk : k = p.url
    · subst hk
      simp only [dictInsert, if_pos rfl]
      intro kv hkv
      rcases List.mem_cons.mp hkv with rfl | hkv
      · rfl
      · exact h kv (List.mem_cons_of_mem _ hkv)
    · simp only [dictInsert, if_neg hk]
      intro kv hkv
      rcases List.mem_cons.mp hkv with rfl | hkv
      · exact h (k, v) (List.mem_cons_self _ _)
      · exact ih (fun kv2 h2 => h kv2 (List.mem_cons_of_mem _ h2)) kv hkv

theorem dictInsert_filter_ne (d : List (String × Post)) (p : Post) (u : String)
    (h : p.url ≠ u) :
    (dictInsert d p).filter (fun kv => kv.1 == u) =
      d.filter (fun kv => kv.1 == u) := by
  induction d with
  | nil => simp [dictInsert, h]
  | cons kv rest ih =>
    obtain ⟨k, v⟩ := kv
    by_cases hk : k = p.url
    · subst hk
      simp [dictInsert, List.filter_cons, h]
    · simp only [dictInsert, if_neg hk]
      rw [List.filter_cons, List.filter_cons, ih]

theorem filter_key_not_mem (d : List (String × Post)) (u : String)
    (h : u ∉ d.map Prod.fst) :
    d.filter (fun kv => kv.1 == u) = [] := by
  rw [List.filter_eq_nil_iff]
  intro kv hkv
  simp only [beq_iff_eq]
  exact fun he => h (he ▸ List.mem_map_of_mem Prod.fst hkv)

theorem dictInsert_filter_self (d : List (String × Post)) (p : Post)
    (h : (d.map Prod.fst).Nodup) :
    (dictInsert d p).filter (fun kv => kv.1 == p.url) = [(p.url, p)] := by
  induction d with
  | nil => simp [dictInsert]
  | cons kv rest ih =>
    obtain ⟨k, v⟩ := kv
    rw [List.map_cons, List.nodup_cons] at h
    obtain ⟨hk, hr⟩ := h
    by_cases hkp : k = p.url
    · subst hkp
      have hins : dictInsert ((p.url, v) :: rest) p = (p.url, p) :: rest := by
        simp [dictInsert]
      rw [hins, List.filter_cons]
      simp only [beq_self_eq_true, if_true]
      rw [filter_key_not_mem rest p.url hk]
    · simp only [dictInsert, if_neg hkp]
      rw [List.filter_cons]
      have hb : ((k, v).1 == p.url) = false := by
        simp [hkp]
      rw [hb]
      simp only [Bool.false_eq_true, if_false]
      exact ih hr

theorem foldl_dictInsert_filter (posts : List Post) (u : String) :
    ∀ d : List (String × Post), (d.map Prod.fst).Nodup →
      (posts.foldl dictInsert d).filter (fun kv => kv.1 == u) =
        (match lastWith u posts with
         | some p => [(u, p)]
         | none => d.filter (fun kv => kv.1 == u)) := by
  induction posts with
  | nil =>
    intro d hd
    simp [lastWith]
  | cons p rest ih =>
    intro d hd
    have hfold : (p :: rest).foldl dictInsert d = rest.foldl dictInsert (dictInsert d p) := rfl
    rw [hfold, ih (dictInsert d p) (dictInsert_keys_nodup d p hd)]
    cases hlast : lastWith u rest with
    | some q => simp [lastWith, hlast]
    | none =>
      by_cases hpu : p.url = u
      · have hb : (p.url == u) = true := by simp [hpu]
        simp only [lastWith, hlast, hb, if_true]
        rw [← hpu]
        exact dictInsert_filter_self d p hd
      · have hb : (p.url == u) = false := by simp [hpu]
        simp only [lastWith, hlast, hb, Bool.false_eq_true, if_false]
        exact dictInsert_filter_ne d p u hpu

theorem map_snd_filter_key (l : List (String × Post)) (u : String)
    (h : ∀ kv ∈ l, (kv : String × Post).2.url = kv.1) :
    (l.map Prod.snd).filter (fun p => p.url == u) =
      (l.filter (fun kv => kv.1 == u)).map Prod.snd := by
  induction l with
  | nil => rfl
  | cons kv rest ih =>
    obtain ⟨k, v⟩ := kv
    have hv : v.url = k := h (k, v) (List.mem_cons_self _ _)
    have ih2 := ih (fun kv2 h2 => h kv2 (List.mem_cons_of_mem _ h2))
    rw [List.map_cons, List.filter_cons, List.filter_cons]
    by_cases hk : k = u
    · have hb1 : ((v : Post).url == u) = true := by simp [hv, hk]
      have hb2 : ((k, v).1 == u) = true := by simp [hk]
      rw [hb1, hb2]
      simp only [if_true]
      rw [List.map_cons, ih2]
    · have hb1 : ((v : Post).url == u) = false := by simp [hv, hk]
      have hb2 : ((k, v).1 == u) = false := by simp [hk]
      rw [hb1, hb2]
      simp only [Bool.false_eq_true, if_false]
      exact ih2

theorem foldl_dictInsert_snd_url (posts : List Post) :
    ∀ d : List (String × Post), (∀ kv ∈ d, (kv : String × Post).2.url = kv.1) →
      ∀ kv ∈ posts.foldl dictInsert d, (kv : String × Post).2.url = kv.1 := by
  induction posts with
  | nil => exact fun d hd => hd
  | cons p rest ih =>
    intro d hd
    exact ih (dictInsert d p) (dictInsert_snd_url d p hd)

theorem foldl_dictInsert_keys_nodup (posts : List Post) :
    ∀ d : List (String × Post), (d.map Prod.fst).Nodup →
      ((posts.foldl dictInsert d).map Prod.fst).Nodup := by
  induction posts with
  | nil => exact fun d hd => hd
  | cons p rest ih =>
    intro d hd
    exact ih (dictInsert d p) (dictInsert_keys_nodup d p hd)

/-- C5 counterexample: a batch with two records sharing a link but with
different titles; the url-keyed dict comprehension keeps the record of the
second (later) occurrence, not the first as the claim states. -/
theorem dedup_keeps_first_refuted :
    dictDedup [⟨"first", "u"⟩, ⟨"second", "u"⟩] = [⟨"second", "u"⟩] ∧
    dictDedup [⟨"first", "u"⟩, ⟨"second", "u"⟩] ≠ [⟨"first", "u"⟩] := by
  refine ⟨rfl, fun h => ?_⟩
  have h2 : ([⟨"second", "u"⟩] : List Post) = [⟨"first", "u"⟩] := h
  simp at h2

/-- C5 amended: when the fetched batch contains several records with the same
link, normalization retains exactly one item for that link, namely the last
occurrence in batch order (a later duplicate overwrites the value stored for
the key while keeping its position); the retained links are pairwise
distinct. -/
theorem dedup_keeps_last (posts : List Post) (u : String) :
    (dictDedup posts).filter (fun p => p.url == u) = (lastWith u posts).toList ∧
    ((dictDedup posts).map Post.url).Nodup := by
  have hwf : ∀ kv ∈ posts.foldl dictInsert [], (kv : String × Post).2.url = kv.1 :=
    foldl_dictInsert_snd_url posts [] (by simp)
  have hnd : ((posts.foldl dictInsert []).map Prod.fst).Nodup :=
    foldl_dictInsert_keys_nodup posts [] (by simp)
  constructor
  · rw [show dictDedup posts = (posts.foldl dictInsert []).map Prod.snd from rfl]
    rw [map_snd_filter_key _ u hwf]
    rw [foldl_dictInsert_filter posts u [] (by simp)]
    cases hlast : lastWith u posts with
    | some p => simp
    | none => simp
  · rw [show dictDedup posts = (posts.foldl dictInsert []).map Prod.snd from rfl]
    rw [List.map_map]
    have hcong : (posts.foldl dictInsert []).map (Post.url ∘ Prod.snd) =
        (posts.foldl dictInsert []).map Prod.fst :=
      List.map_congr_left (fun kv hkv => hwf kv hkv)
    rw [hcong]
    exact hnd

theorem replChar_append (c : Char) (e : List Char) (a b : List Char) :
    replChar c e (a ++ b) = replChar c e a ++ replChar c e b := by
  induction a with
  | nil => rfl
  | cons x xs ih => simp [replChar, ih]

theorem html_escape_singleton (c : Char) : html_escape [c] = escapeChar c := by
  by_cases h1 : c = '&'
  · subst h1
    rfl
  by_cases h2 : c = '<'
  · subst h2
    rfl
  by_cases h3 : c = '>'
  · subst h3
    rfl
  by_cases h4 : c = '"'
  · subst h4
    rfl
  by_cases h5 : c = apos
  · subst h5
    rfl
  simp [html_escape, replChar, escapeChar, h1, h2, h3, h4, h5]

theorem html_escape_append (a b : List Char) :
    html_escape (a ++ b) = html_escape a ++ html_escape b := by
  unfold html_escape
  rw [replChar_append, replChar_append, replChar_append, replChar_append,
    replChar_append]

theorem html_escape_eq_escapeMap (s : List Char) : html_escape s = escapeMap s := by
  induction s with
  | nil => rfl
  | cons c t ih =>
    have hsplit : html_escape (c :: t) = html_escape [c] ++ html_escape t := by
      rw [← html_escape_append]
      rfl
    rw [hsplit, html_escape_singleton, ih]
    rfl

theorem noUnescaped_append_escapeChar (c : Char) (s : List Char)
    (h : noUnescaped s = true) : noUnescaped (escapeChar c ++ s) = true := by
  by_cases h1 : c = '&'
  · subst h1
    simp [escapeChar, noUnescaped, isEntityAt, entityBodies, h]
  by_cases h2 : c = '<'
  · subst h2
    simp [escapeChar, noUnescaped, isEntityAt, entityBodies, h, h1]
  by_cases h3 : c = '>'
  · subst h3
    simp [escapeChar, noUnescaped, isEntityAt, entityBodies, h, h1, h2]
  by_cases h4 : c = '"'
  · subst h4
    simp [escapeChar, noUnescaped, isEntityAt, entityBodies, h, h1, h2, h3]
  by_cases h5 : c = apos
  · subst h5
    simp [escapeChar, noUnescaped, isEntityAt, entityBodies, h, apos]
  simp [escapeChar, noUnescaped, h, h1, h2, h3, h4, h5]

theorem noUnescaped_escapeMap (s : List Char) :
    noUnescaped (escapeMap s) = true := by
  induction s with
  | nil => rfl
  | cons c t ih =>
    rw [show escapeMap (c :: t) = escapeChar c ++ escapeMap t from rfl]
    exact noUnescaped_append_escapeChar c (escapeMap t) ih

/-- C8: Markup-injection escaping: the outbound message embeds the title and
the url only through html.escape, and the escaped segments contain no literal
angle bracket and no ampersand that does not start one of the escape
entities, so no reserved character of the raw title or url survives
unescaped. -/
theorem markup_injection_escaping (title url : List Char) :
    telegram_message_text title url =
      ('<' :: 'b' :: '>' :: html_escape title) ++
        ('<' :: '/' :: 'b' :: '>' :: '\n' :: html_escape url) ∧
    noUnescaped (html_escape title) = true ∧
    noUnescaped (html_escape url) = true := by
  refine ⟨rfl, ?_, ?_⟩
  · rw [html_escape_eq_escapeMap]
    exact noUnescaped_escapeMap title
  · rw [html_escape_eq_escapeMap]
    exact noUnescaped_escapeMap url

theorem httpGetAux_succ_retry (net : Nat → Option Nat) (attempt m : Nat)
    (s : Nat) (h : net attempt = some s) (hr : retryStatus s = true) :
    httpGetAux net attempt (m + 1) =
      ((httpGetAux net (attempt + 1) m).1,
       (httpGetAux net (attempt + 1) m).2.1 + 1,
       2 * attempt :: (httpGetAux net (attempt + 1) m).2.2) := by
  simp [httpGetAux, h, hr]

theorem httpGetAux_succ_ret (net : Nat → Option Nat) (attempt m : Nat)
    (s : Nat) (h : net attempt = some s) (hr : retryStatus s = false) :
    httpGetAux net attempt (m + 1) = (Except.ok s, 1, []) := by
  simp [httpGetAux, h, hr]

theorem httpGetAux_succ_none (net : Nat → Option Nat) (attempt m : Nat)
    (h : net attempt = none) :
    httpGetAux net attempt (m + 1) =
      ((httpGetAux net (attempt + 1) m).1,
       (httpGetAux net (attempt + 1) m).2.1 + 1,
       2 * attempt :: (httpGetAux net (attempt + 1) m).2.2) := by
  simp [httpGetAux, h]

theorem httpGetAux_spec (net : Nat → Option Nat) :
    ∀ (remaining attempt : Nat),
      1 ≤ (httpGetAux net attempt remaining).2.1 ∧
      (httpGetAux net attempt remaining).2.1 ≤ remaining + 1 ∧
      (∀ j, j + 1 < (httpGetAux net attempt remaining).2.1 →
        net (attempt + j) = none ∨
          ∃ s, net (attempt + j) = some s ∧ retryStatus s = true) ∧
      ((httpGetAux net attempt remaining).2.1 < remaining + 1 →
        ∃ s, net (attempt + ((httpGetAux net attempt remaining).2.1 - 1)) = some s ∧
          retryStatus s = false ∧
          (httpGetAux net attempt remaining).1 = Except.ok s) ∧
      ((httpGetAux net attempt remaining).1 = Except.error () ↔
        (httpGetAux net attempt remaining).2.1 = remaining + 1 ∧
          net (attempt + remaining) = none) ∧
      (httpGetAux net attempt remaining).2.2 =
        (List.range' attempt ((httpGetAux net attempt remaining).2.1 - 1)).map
          (fun a => 2 * a) ∧
      ((httpGetAux net attempt remaining).2.1 = remaining + 1 →
        ∀ s, net (attempt + remaining) = some s →
          (httpGetAux net attempt remaining).1 = Except.ok s) := by
  intro remaining
  induction remaining with
  | zero =>
    intro attempt
    cases hnet : net attempt with
    | some s =>
      rw [show httpGetAux net attempt 0 = (Except.ok s, 1, []) from by
        simp [httpGetAux, hnet]]
      dsimp only
      refine ⟨Nat.le_refl 1, Nat.le_refl 1, ?_, ?_, ?_, by simp, ?_⟩
      · intro j hj
        omega
      · intro hlt
        omega
      · simp [hnet]
      · intro _ s2 hs2
        rw [Nat.add_zero, hnet] at hs2
        cases hs2
        rfl
    | none =>
      rw [show httpGetAux net attempt 0 = (Except.error (), 1, []) from by
        simp [httpGetAux, hnet]]
      dsimp only
      refine ⟨Nat.le_refl 1, Nat.le_refl 1, ?_, ?_, ?_, by simp, ?_⟩
      · intro j hj
        omega
      · intro hlt
        omega
      · simp [hnet]
      · intro _ s2 hs2
        rw [Nat.add_zero, hnet] at hs2
        cases hs2
  | succ m ih =>
    intro attempt
    obtain ⟨A2, B2, C2, D2, E2, F2, G2⟩ := ih (attempt + 1)
    cases hnet : net attempt with
    | some s =>
      cases hr : retryStatus s with
      | false =>
        rw [httpGetAux_succ_ret net attempt m s hnet hr]
        dsimp only
        refine ⟨Nat.le_refl 1, by omega, ?_, ?_, ?_, by simp, ?_⟩
        · intro j hj
          omega
        · intro _
          refine ⟨s, ?_, hr, rfl⟩
          simpa using hnet
        · constructor
          · intro he
            exact Except.noConfusion he
          · rintro ⟨he, _⟩
            omega
        · intro habs
          omega
      | true =>
        rw [httpGetAux_succ_retry net attempt m s hnet hr]
        set n2 := (httpGetAux net (attempt + 1) m).2.1 with hn2
        dsimp only
        refine ⟨by omega, by omega, ?_, ?_, ?_, ?_, ?_⟩
        · intro j hj
          cases j with
          | zero =>
            right
            exact ⟨s, by simpa using hnet, hr⟩
          | succ i =>
            have := C2 i (by omega)
            rw [show attempt + (i + 1) = attempt + 1 + i from by omega]
            exact this
        · intro hlt
          obtain ⟨s2, hs2, hr2, hok⟩ := D2 (by omega)
          refine ⟨s2, ?_, hr2, hok⟩
          rw [show attempt + (n2 + 1 - 1) = attempt + 1 + (n2 - 1) from by omega]
          exact hs2
        · rw [E2]
          constructor
          · rintro ⟨he, hnone⟩
            refine ⟨by omega, ?_⟩
            rw [show attempt + (m + 1) = attempt + 1 + m from by omega]
            exact hnone
          · rintro ⟨he, hnone⟩
            refine ⟨by omega, ?_⟩
            rw [show attempt + 1 + m = attempt + (m + 1) from by omega]
            exact hnone
        · rw [F2]
          obtain ⟨k, hk⟩ : ∃ k, n2 = k + 1 := ⟨n2 - 1, by omega⟩
          rw [hk]
          rw [show k + 1 + 1 - 1 = k + 1 from by omega,
            show k + 1 - 1 = k from by omega]
          rw [List.range'_succ]
          rfl
        · intro hn s2 hs2
          apply G2 (by omega) s2
          rw [show attempt + 1 + m = attempt + (m + 1) from by omega]
          exact hs2
    | none =>
      rw [httpGetAux_succ_none net attempt m hnet]
      set n2 := (httpGetAux net (attempt + 1) m).2.1 with hn2
      dsimp only
      refine ⟨by omega, by omega, ?_, ?_, ?_, ?_, ?_⟩
      · intro j hj
        cases j with
        | zero =>
          left
          simpa using hnet
        | succ i =>
          have := C2 i (by omega)
          rw [show attempt + (i + 1) = attempt + 1 + i from by omega]
          exact this
      · intro hlt
        obtain ⟨s2, hs2, hr2, hok⟩ := D2 (by omega)
        refine ⟨s2, ?_, hr2, hok⟩
        rw [show attempt + (n2 + 1 - 1) = attempt + 1 + (n2 - 1) from by omega]
        exact hs2
      · rw [E2]
        constructor
        · rintro ⟨he, hnone⟩
          refine ⟨by omega, ?_⟩
          rw [show attempt + (m + 1) = attempt + 1 + m from by omega]
          exact hnone
        · rintro ⟨he, hnone⟩
          refine ⟨by omega, ?_⟩
          rw [show attempt + 1 + m = attempt + (m + 1) from by omega]
          exact hnone
      · rw [F2]
        obtain ⟨k, hk⟩ : ∃ k, n2 = k + 1 := ⟨n2 - 1, by omega⟩
        rw [hk]
        rw [show k + 1 + 1 - 1 = k + 1 from by omega,
          show k + 1 - 1 = k from by omega]
        rw [List.range'_succ]
        rfl
      · intro hn s2 hs2
        apply G2 (by omega) s2
        rw [show attempt + 1 + m = attempt + (m + 1) from by omega]
        exact hs2

/-- C10: Bounded fetch attempts: http_get always terminates, issues between
one and four GET requests, retries an attempt (after sleeping 2 times the
attempt number) only when it raised or returned one of the statuses 429,
500, 502, 503, 504, returns any other response of the first three attempts
immediately, returns whatever status the fourth request produces, and lets
only an exception of the fourth request propagate. -/
theorem bounded_fetch_attempts (net : Nat → Option Nat) :
    1 ≤ (http_get net).2.1 ∧
    (http_get net).2.1 ≤ 4 ∧
    (∀ j, j + 1 < (http_get net).2.1 →
      net (1 + j) = none ∨ ∃ s, net (1 + j) = some s ∧ retryStatus s = true) ∧
    ((http_get net).2.1 < 4 →
      ∃ s, net (1 + ((http_get net).2.1 - 1)) = some s ∧
        retryStatus s = false ∧ (http_get net).1 = Except.ok s) ∧
    ((http_get net).1 = Except.error () ↔
      (http_get net).2.1 = 4 ∧ net 4 = none) ∧
    (http_get net).2.2 =
      (List.range' 1 ((http_get net).2.1 - 1)).map (fun a => 2 * a) ∧
    ((http_get net).2.1 = 4 → ∀ s, net 4 = some s →
      (http_get net).1 = Except.ok s) := by
  have h := httpGetAux_spec net 3 1
  exact h

/-- Witness for bounded_fetch_attempts at a network that always answers 200. -/
theorem bounded_fetch_attempts_witness : (http_get netW).2.1 ≤ 4 :=
  (bounded_fetch_attempts netW).2.1

/-- Witness for per_item_commit_no_loss at a concrete fresh two-item batch
whose second send is rejected. -/
theorem per_item_commit_no_loss_witness :
    (runLoop sendOkW postsW []).sentPosts = postsW.take 1 ∧
    (runLoop (fun _ => true) postsW
      (runLoop sendOkW postsW []).seen).sentPosts = postsW.drop 1 := by
  have h := per_item_commit_no_loss sendOkW postsW postsW [] 1 (by decide)
    (by decide) (by decide) (by decide) (by decide) (by decide) (by decide)
  exact ⟨h.1, h.2.2.2.2.1⟩

end BlogBot
